import Mathlib

/-!
Verification of the Ostracon voter-set excerpt (`types/voter_set.go` and the
generated protobuf codec `proto/ostracon/libs/bits/types.pb.go`).

The Go code is shallowly embedded: machine `int64`/`uint64` values become
`Int`/`Nat` with explicit wrapping or clipping where the source wraps or
clips, byte slices become `List Nat`, Go `nil`-able pointers become
`Option`, fallible functions return `Except`, and a Go `panic` is modelled
as `Option.none`.  Cryptographic primitives (signature verification and the
canonical vote sign-bytes), which the code calls but does not define, are
parameters of the embedded verifiers.
-/

namespace Ostracon

/-- A byte string (each entry is intended to be `< 256`). -/
abbrev Bytes := List Nat

/-- `math.MaxInt64`. -/
def int64Max : Int := 2 ^ 63 - 1

/-- `math.MinInt64`. -/
def int64Min : Int := -(2 ^ 63)

/-- Modelled from the spec: the ceiling on a voter set's total voting power,
`MaxTotalVotingPower = int64::MAX / 8` (the constant lives in validator-set
code outside the excerpt; the spec gives the value). -/
def MaxTotalVotingPower : Int := int64Max / 8

/-- Wrap an unbounded integer into the `int64` range, the way Go two's
complement addition of in-range summands behaves on overflow. -/
def wrap64 (x : Int) : Int := (x + 2 ^ 63) % 2 ^ 64 - 2 ^ 63

/-- Reinterpret a `uint64` value (a natural number, taken mod `2^64`) as a
Go `int64`, i.e. two's complement. -/
def toInt64 (n : Nat) : Int :=
  if n % 2 ^ 64 < 2 ^ 63 then ((n % 2 ^ 64 : Nat) : Int)
  else ((n % 2 ^ 64 : Nat) : Int) - 2 ^ 64

/-- Modelled from the spec: overflow-checked `int64` addition (`safeAdd` in
library code outside the excerpt); returns the sum and an overflow flag. -/
def safeAdd (a b : Int) : Int × Bool :=
  if a + b > int64Max ∨ a + b < int64Min then (-1, true) else (a + b, false)

/-- Modelled from the spec: clipped `int64` addition (`safeAddClip` in
library code outside the excerpt): on overflow the result is clipped to the
nearer `int64` bound. -/
def safeAddClip (a b : Int) : Int :=
  let r := safeAdd a b
  if r.2 then (if b < 0 then int64Min else int64Max) else r.1

/-- Modelled from the spec: overflow-checked `int64` multiplication
(`safeMul` in library code outside the excerpt, used by
`VerifyCommitLightTrusting`): returns `(0, true)` when the mathematical
product leaves the `int64` range, otherwise the product and `false`. -/
def safeMul (a b : Int) : Int × Bool :=
  if a * b > int64Max ∨ a * b < int64Min then (0, true) else (a * b, false)

/-- `bytes.Compare`: lexicographic three-way comparison of byte strings,
`-1` / `0` / `1`. -/
def bytesCompare : Bytes → Bytes → Int
  | [], [] => 0
  | [], _ :: _ => -1
  | _ :: _, [] => 1
  | a :: as, b :: bs => if a < b then -1 else if b < a then 1 else bytesCompare as bs

/-- A validator: address, public key (opaque, represented by a number) and
voting power (`int64`). -/
structure Validator where
  address : Bytes
  pubKey : Nat
  votingPower : Int
deriving DecidableEq

/-- `VoterSet`: the voter list plus the cached (possibly stale, possibly
zero) `totalVotingPower` field. -/
structure VoterSet where
  Voters : List Validator
  totalVotingPower : Int
deriving DecidableEq

/-- `ValidatorSet` (declared outside the excerpt; only its two fields used
by `SelectVoter` are modelled): validator list plus cached total power. -/
structure ValidatorSet where
  Validators : List Validator
  totalVotingPower : Int
deriving DecidableEq

/-- The strict `ValidatorsByAddress` order used for sorting voters. -/
def addrLt (a b : Validator) : Prop := bytesCompare a.address b.address < 0

instance : DecidableRel addrLt := fun a b => by unfold addrLt; exact inferInstance

/-- The reflexive closure of `addrLt`, used by the insertion sort that
models `sort.Sort(ValidatorsByAddress(valz))`. -/
def addrLe (a b : Validator) : Prop := bytesCompare a.address b.address ≤ 0

instance : DecidableRel addrLe := fun a b => by unfold addrLe; exact inferInstance

/-- `sort.Sort(ValidatorsByAddress(valz))`, modelled by an insertion sort
with the same order (the Go sort is unspecified-but-deterministic; on
address-unique input every sort agrees). -/
def sortByAddress (l : List Validator) : List Validator := l.insertionSort addrLe

/-- The loop body of `updateTotalVotingPower`: clipped running sum, with a
`panic` (modelled as `none`) as soon as the sum exceeds
`MaxTotalVotingPower`. -/
def updateTVPLoop : Int → List Validator → Option Int
  | sum, [] => some sum
  | sum, v :: vs =>
    let s := safeAddClip sum v.votingPower
    if s > MaxTotalVotingPower then none else updateTVPLoop s vs

/-- `(*VoterSet).updateTotalVotingPower` applied to a voter list: the value
the cached field is set to, or `none` for the panic. -/
def updateTotalVotingPower (voters : List Validator) : Option Int :=
  updateTVPLoop 0 voters

/-- `NewVoterSet`: sort by address, then eagerly compute the cached total
voting power (`none` models the panic on exceeding the ceiling). -/
def NewVoterSet (valz : List Validator) : Option VoterSet :=
  match updateTotalVotingPower (sortByAddress valz) with
  | none => none
  | some s => some ⟨sortByAddress valz, s⟩

/-- `(*VoterSet).TotalVotingPower` with its receiver mutation made
explicit: if the cached field reads zero it is recomputed (possibly
panicking) and written back; the returned pair is the value read and the
receiver after the call. -/
def VoterSet.totalVotingPowerRead (v : VoterSet) : Option (Int × VoterSet) :=
  if v.totalVotingPower = 0 then
    match updateTotalVotingPower v.Voters with
    | none => none
    | some s => some (s, { v with totalVotingPower := s })
  else some (v.totalVotingPower, v)

/-- The value returned by `(*VoterSet).TotalVotingPower` (dropping the
receiver mutation). -/
def VoterSet.TotalVotingPower (v : VoterSet) : Option Int :=
  v.totalVotingPowerRead.map Prod.fst

/-- Modelled from the spec: `(*ValidatorSet).TotalVotingPower` (declared
outside the excerpt) follows the same lazily-recomputed-cache pattern as
the voter set's. -/
def ValidatorSet.TotalVotingPower (v : ValidatorSet) : Option Int :=
  if v.totalVotingPower = 0 then updateTotalVotingPower v.Validators
  else some v.totalVotingPower

/-- Go's `sort.Search` binary-search loop: smallest index in `[i, j)` at
which `f` holds, assuming `f` monotone.  The loop is driven by a
structural fuel that dominates the interval width `j - i` (the width
strictly shrinks every iteration, so with initial fuel `n` the fuel can
only run out once the interval is empty, which is exactly the loop's exit
condition); the fuel keeps the function kernel-reducible. -/
def sortSearchAux (f : Nat → Bool) : Nat → Nat → Nat → Nat
  | 0, i, _ => i
  | fuel + 1, i, j =>
    if i < j then
      let m := (i + j) / 2
      if f m then sortSearchAux f fuel i m else sortSearchAux f fuel (m + 1) j
    else i

/-- `sort.Search(n, f)`. -/
def sortSearch (n : Nat) (f : Nat → Bool) : Nat := sortSearchAux f n 0 n

/-- Placeholder validator used to express list indexing totally; the Go
code only indexes in bounds. -/
def defaultValidator : Validator := ⟨[], 0, 0⟩

/-- `(*VoterSet).GetByAddress`: binary search for the address; `none`
models the Go `(-1, nil)` not-found result. -/
def VoterSet.GetByAddress (voters : VoterSet) (address : Bytes) :
    Option (Nat × Validator) :=
  let n := voters.Voters.length
  let idx := sortSearch n
    (fun i => bytesCompare address (voters.Voters.getD i defaultValidator).address ≤ 0)
  if idx < n ∧ (voters.Voters.getD idx defaultValidator).address = address then
    some (idx, voters.Voters.getD idx defaultValidator)
  else none

/-! ## Commits and the three verifiers -/

/-- The `BlockIDFlag` of a `CommitSig`: absent, signed for the block
(`BlockIDFlagCommit`), or signed for nil. -/
inductive BlockIDFlag where
  | absent
  | forBlock
  | forNil
deriving DecidableEq

/-- A single commit signature: flag, signer address and raw signature. -/
structure CommitSig where
  flag : BlockIDFlag
  validatorAddress : Bytes
  signature : Bytes
deriving DecidableEq

/-- `CommitSig.Absent`. -/
def CommitSig.Absent (cs : CommitSig) : Bool := cs.flag = BlockIDFlag.absent

/-- `CommitSig.ForBlock`. -/
def CommitSig.ForBlock (cs : CommitSig) : Bool := cs.flag = BlockIDFlag.forBlock

/-- A commit: height, the block id voted on (opaque, a number; `Equals` is
equality) and the signature list. -/
structure Commit where
  height : Int
  blockID : Nat
  signatures : List CommitSig
deriving DecidableEq

/-- The fraction type of `trustLevel` (`tmmath.Fraction`): numerator and
denominator are `uint64`, modelled as naturals. -/
structure Fraction where
  num : Nat
  den : Nat
deriving DecidableEq

/-- Verification outcomes of the commit verifiers, one constructor per
error kind produced by the source. -/
inductive VerifyErr where
  | invalidCommitSignatures (voters sigs : Nat)
  | invalidCommitHeight (want got : Int)
  | wrongBlockID
  | wrongSignature (idx : Nat)
  | notEnoughVotingPower (got needed : Int)
  | zeroDenominator
  | trustOverflow
  | doubleVote (first second : Nat)
deriving DecidableEq

/-- A signature-verification oracle standing for
`PubKey.VerifySignature(msg, sig)`: arguments are the public key, the
message bytes and the signature. -/
abbrev SigVerifier := Nat → Bytes → Bytes → Bool

/-- Sign-bytes oracle standing for `commit.VoteSignBytes(chainID, idx)`. -/
abbrev SignBytes := String → Commit → Nat → Bytes

/-- The tally loop of `VerifyCommit` over the 1-to-1 (voter, signature)
pairs (`sb` is `VoteSignBytes` with the chain id and commit applied):
absent signatures are skipped, every present signature must verify, and
for-block signatures add the voter's power to the (wrapping `int64`)
tally; at the end the tally must strictly exceed `needed`. -/
def verifyCommitLoop (verify : SigVerifier) (sb : Nat → Bytes) (needed : Int) :
    Nat → Int → List (Validator × CommitSig) → Except VerifyErr Unit
  | _, tallied, [] =>
    if tallied > needed then .ok ()
    else .error (.notEnoughVotingPower tallied needed)
  | idx, tallied, (voter, cs) :: rest =>
    if cs.Absent then verifyCommitLoop verify sb needed (idx + 1) tallied rest
    else if verify voter.pubKey (sb idx) cs.signature = false then
      .error (.wrongSignature idx)
    else if cs.ForBlock then
      verifyCommitLoop verify sb needed (idx + 1) (wrap64 (tallied + voter.votingPower)) rest
    else verifyCommitLoop verify sb needed (idx + 1) tallied rest

/-- `(*VoterSet).VerifyCommit`; `none` models the panic reachable through
the lazy total-power recomputation.  `votingPowerNeeded` is
`TotalVotingPower() * 2 / 3` computed in `int64`, so the multiplication
wraps (relevant only for cached totals outside the documented
`MaxTotalVotingPower` invariant, which `VoterSetFromProto` does not
enforce). -/
def VerifyCommit (verify : SigVerifier) (signBytes : SignBytes)
    (chainID : String) (blockID : Nat) (height : Int)
    (voters : VoterSet) (commit : Commit) : Option (Except VerifyErr Unit) :=
  if voters.Voters.length ≠ commit.signatures.length then
    some (.error (.invalidCommitSignatures voters.Voters.length commit.signatures.length))
  else if height ≠ commit.height then
    some (.error (.invalidCommitHeight height commit.height))
  else if blockID ≠ commit.blockID then
    some (.error .wrongBlockID)
  else
    match voters.TotalVotingPower with
    | none => none
    | some total =>
      some (verifyCommitLoop verify (signBytes chainID commit)
        ((wrap64 (total * 2)).tdiv 3) 0 0 (voters.Voters.zip commit.signatures))

/-- First-match lookup in the `seenVoters` association list (voter index to
commit index); the Go map never overwrites a key in this loop because a
repeated key returns first. -/
def lookupSeen : List (Nat × Nat) → Nat → Option Nat
  | [], _ => none
  | (k, v) :: rest, key => if k = key then some v else lookupSeen rest key

/-- The scan loop of `VerifyCommitLightTrusting` over the indexed
signatures.  `Sum.inl` is an early `return` (success or error) and
`Sum.inr` is the state `(talliedVotingPower, seenVoters)` reaching the end
of the list. -/
def vcltLoop (verify : SigVerifier) (sb : Nat → Bytes) (voters : VoterSet)
    (needed : Int) :
    List (Nat × CommitSig) → Int → List (Nat × Nat) →
    Sum (Except VerifyErr Unit) (Int × List (Nat × Nat))
  | [], tallied, seen => .inr (tallied, seen)
  | (idx, cs) :: rest, tallied, seen =>
    if cs.ForBlock = false then vcltLoop verify sb voters needed rest tallied seen
    else
      match voters.GetByAddress cs.validatorAddress with
      | none => vcltLoop verify sb voters needed rest tallied seen
      | some (voterIdx, voter) =>
        match lookupSeen seen voterIdx with
        | some firstIndex => .inl (.error (.doubleVote firstIndex idx))
        | none =>
          if verify voter.pubKey (sb idx) cs.signature = false then
            .inl (.error (.wrongSignature idx))
          else
            let tallied2 := wrap64 (tallied + voter.votingPower)
            if tallied2 > needed then .inl (.ok ())
            else vcltLoop verify sb voters needed rest tallied2 ((voterIdx, idx) :: seen)

/-- `(*VoterSet).VerifyCommitLightTrusting`: zero-denominator sanity check,
lazy total power (panic as `none`), overflow-checked threshold
`total * numerator / denominator`, then the scan loop. -/
def VerifyCommitLightTrusting (verify : SigVerifier) (signBytes : SignBytes)
    (chainID : String) (voters : VoterSet) (commit : Commit)
    (trustLevel : Fraction) : Option (Except VerifyErr Unit) :=
  if trustLevel.den = 0 then some (.error .zeroDenominator)
  else
    match voters.TotalVotingPower with
    | none => none
    | some total =>
      let m := safeMul total (toInt64 trustLevel.num)
      if m.2 then some (.error .trustOverflow)
      else
        let needed := m.1.tdiv (toInt64 trustLevel.den)
        match vcltLoop verify (signBytes chainID commit) voters needed
            (List.enumFrom 0 commit.signatures) 0 [] with
        | .inl r => some r
        | .inr (tallied, _) => some (.error (.notEnoughVotingPower tallied needed))

/-- The voting power tallied from explicitly for-block pairs, the
specification-side quantity of the threshold claims. -/
def talliedPairs (l : List (Validator × CommitSig)) : Int :=
  ((l.filter (fun p => p.2.ForBlock)).map (fun p => p.1.votingPower)).sum

/-- The spec's "summed voting power of signatures explicitly marked
for-block" for a voter set and a signature list in 1-to-1 correspondence. -/
def talliedForBlock (voters : List Validator) (sigs : List CommitSig) : Int :=
  talliedPairs (voters.zip sigs)

/-! ## Protobuf conversion of voter sets -/

/-- The wire form of a validator (`tmproto.Validator`); the excerpt treats
it as a field-for-field mirror. -/
structure ProtoValidator where
  address : Bytes
  pubKey : Nat
  votingPower : Int
deriving DecidableEq

/-- The wire form of a voter set (`tmproto.VoterSet`): ordered validator
list plus the 64-bit total voting power. -/
structure ProtoVoterSet where
  Validators : List ProtoValidator
  TotalVotingPower : Int
deriving DecidableEq

/-- Modelled from the spec: `(*Validator).ToProto` (declared outside the
excerpt); the wire representation carries the validator's fields exactly. -/
def Validator.ToProto (v : Validator) : Except String ProtoValidator :=
  .ok ⟨v.address, v.pubKey, v.votingPower⟩

/-- Modelled from the spec: `ValidatorFromProto` (declared outside the
excerpt); restores the validator's fields exactly. -/
def ValidatorFromProto (pv : ProtoValidator) : Except String Validator :=
  .ok ⟨pv.address, pv.pubKey, pv.votingPower⟩

/-- Modelled from the spec: `(*Validator).ValidateBasic` (declared outside
the excerpt); the spec states no per-validator validity condition at this
interface, so it accepts. -/
def Validator.ValidateBasic (_ : Validator) : Except String Unit := .ok ()

/-- `(*VoterSet).IsNilOrEmpty` (a Lean `VoterSet` value is never nil, so
only emptiness remains). -/
def VoterSet.IsNilOrEmpty (voters : VoterSet) : Bool := voters.Voters.length = 0

/-- The per-validator half of `(*VoterSet).ValidateBasic`. -/
def validateVoters : List Validator → Except String Unit
  | [] => .ok ()
  | v :: vs =>
    match v.ValidateBasic with
    | .error e => .error e
    | .ok () => validateVoters vs

/-- `(*VoterSet).ValidateBasic`: rejects a nil-or-empty set, then
validates every voter. -/
def VoterSet.ValidateBasic (voters : VoterSet) : Except String Unit :=
  if voters.IsNilOrEmpty then .error "voter set is nil or empty"
  else validateVoters voters.Voters

/-- The conversion loop of `(*VoterSet).ToProto` over the voter list. -/
def validatorListToProto : List Validator → Except String (List ProtoValidator)
  | [] => .ok []
  | v :: vs =>
    match v.ToProto with
    | .error e => .error e
    | .ok pv =>
      match validatorListToProto vs with
      | .error e => .error e
      | .ok pvs => .ok (pv :: pvs)

/-- The conversion loop of `VoterSetFromProto` over the wire list. -/
def validatorListFromProto : List ProtoValidator → Except String (List Validator)
  | [] => .ok []
  | pv :: pvs =>
    match ValidatorFromProto pv with
    | .error e => .error e
    | .ok v =>
      match validatorListFromProto pvs with
      | .error e => .error e
      | .ok vs => .ok (v :: vs)

/-- `(*VoterSet).ToProto`: a nil-or-empty set encodes to the zero message;
otherwise each voter is converted in order and the cached
`totalVotingPower` field is copied verbatim. -/
def VoterSet.ToProto (voters : VoterSet) : Except String ProtoVoterSet :=
  if voters.IsNilOrEmpty then .ok ⟨[], 0⟩
  else
    match validatorListToProto voters.Voters with
    | .error e => .error e
    | .ok valsProto => .ok ⟨valsProto, voters.totalVotingPower⟩

/-- `VoterSetFromProto`: `none` models the Go nil pointer; validators are
converted in order, the wire total is copied into the cached field, and
the result must pass `ValidateBasic`. -/
def VoterSetFromProto (vp : Option ProtoVoterSet) : Except String VoterSet :=
  match vp with
  | none => .error "nil voter set"
  | some vp =>
    match validatorListFromProto vp.Validators with
    | .error e => .error e
    | .ok vals =>
      let voters : VoterSet := ⟨vals, vp.TotalVotingPower⟩
      match voters.ValidateBasic with
      | .error e => .error e
      | .ok () => .ok voters

/-- The encode-then-decode round trip of a voter set. -/
def voterSetRoundTrip (voters : VoterSet) : Except String VoterSet :=
  match voters.ToProto with
  | .error e => .error e
  | .ok m => VoterSetFromProto (some m)

/-! ## Voter selection -/

/-- `hashToSeed`: zero-pad the hash on the right to 8 bytes and read the
first 8 bytes as a little-endian `uint64`. -/
def hashToSeed (hash : Bytes) : Nat :=
  ((hash ++ List.replicate (8 - hash.length) 0).take 8).foldr
    (fun b acc => acc * 256 + b % 256) 0

/-- `(*candidate).Priority`: negative voting power is sampled with
priority zero. -/
def candidatePriority (v : Validator) : Nat :=
  if v.votingPower < 0 then 0 else v.votingPower.toNat

/-- Modelled from the spec: one step of the deterministic pseudo-random
stream seeding the sampler (the concrete generator lives in `tmrand`
outside the excerpt; a 64-bit linear congruential generator stands in). -/
def lcg (s : Nat) : Nat := (s * 6364136223846793005 + 1442695040888963407) % 2 ^ 64

/-- Pick the winner of one weighted draw: the candidate whose cumulative
priority interval contains `x`. -/
def pickWeighted : List Nat → Nat → Nat
  | [], _ => 0
  | p :: ps, x => if x < p then 0 else pickWeighted ps (x - p) + 1

/-- Increment the entry at an index of a win-count list. -/
def incAt (l : List Nat) (i : Nat) : List Nat := l.set i (l.getD i 0 + 1)

/-- Modelled from the spec: the draw loop of `tmrand.RandomSamplingToMax`
(outside the excerpt): exactly `n` seeded weighted draws with replacement,
each incrementing the winner's win count. -/
def drawLoop (priorities : List Nat) (totalP : Nat) :
    Nat → Nat → List Nat → List Nat
  | 0, _, wins => wins
  | n + 1, st, wins =>
    let st2 := lcg st
    drawLoop priorities totalP n st2 (incAt wins (pickWeighted priorities (st2 % totalP)))

/-- Modelled from the spec: `tmrand.RandomSamplingToMax` (outside the
excerpt): performs `sampleSize` weighted draws over the candidates'
priorities and returns the per-candidate win counts together with the
total number of draws (`totalSampling`, the sum of all win counts). -/
def randomSamplingToMax (seed : Nat) (priorities : List Nat) (sampleSize : Nat) :
    List Nat × Nat :=
  let totalP := priorities.sum
  if totalP = 0 then (List.replicate priorities.length 0, sampleSize)
  else (drawLoop priorities totalP sampleSize seed (List.replicate priorities.length 0), sampleSize)

/-- The redistributed power of a winner in the sampling branch.  The
source computes `total/ts*win` with an unchecked `int64` multiply and the
ceiling term through `float64` arithmetic and `math.Ceil`; this definition
is an exact-integer idealization of that computation — IEEE-754 evaluation
is outside this embedding — and serves only to keep `SelectVoter` a total
function: no theorem in this development depends on the sampling branch's
power values. -/
def assignedPower (total : Int) (totalSampling : Nat) (win : Nat) : Int :=
  total.tdiv (totalSampling : Int) * (win : Int) +
    (((total.tmod (totalSampling : Int)) * (win : Int) + (totalSampling : Int) - 1).ediv
      (totalSampling : Int))

/-- `SelectVoter`.  The first branch (empty proof hash or a small
validator set) is translated directly from the source: the voter list is
the validator list unsorted and unchanged, with the total recomputed
eagerly (`none` is the panic).  The sampling branch composes the sampler
(modelled from the spec; `tmrand` is outside the excerpt) and the
idealized power redistribution (`assignedPower`) with the source's
win-count filtering and `NewVoterSet`. -/
def SelectVoter (maxVoters : Nat) (validators : ValidatorSet) (proofHash : Bytes) :
    Option VoterSet :=
  if proofHash.length = 0 ∨ validators.Validators.length ≤ maxVoters then
    match updateTotalVotingPower validators.Validators with
    | none => none
    | some s => some ⟨validators.Validators, s⟩
  else
    match validators.TotalVotingPower with
    | none => none
    | some total =>
      let seed := hashToSeed proofHash
      let priorities := validators.Validators.map candidatePriority
      let r := randomSamplingToMax seed priorities maxVoters
      let winners := (validators.Validators.zip r.1).filter (fun p => 0 < p.2)
      NewVoterSet (winners.map (fun p =>
        { p.1 with votingPower := assignedPower total r.2 p.2 }))

/-! ## The generated `BitArray` protobuf codec -/

/-- Reinterpret a `uint32` bit pattern as a Go `int32` (used for the
`int32(wire >> 3)` field-number cast). -/
def toInt32 (n : Nat) : Int :=
  if n % 2 ^ 32 < 2 ^ 31 then ((n % 2 ^ 32 : Nat) : Int)
  else ((n % 2 ^ 32 : Nat) : Int) - 2 ^ 32

/-- The wire message `BitArray`: a signed bit count and the packed
`uint64` words. -/
structure BitArray where
  Bits : Int
  Elems : List Nat
deriving DecidableEq

/-- The inner varint-emitting loop shared by `MarshalToSizedBuffer` and
`encodeVarintTypes`: little-endian base-128 groups with a continuation
bit. -/
def putUvarint (v : Nat) : List Nat :=
  if v < 128 then [v] else (v % 128 + 128) :: putUvarint (v / 128)
termination_by v
decreasing_by exact Nat.div_lt_self (by omega) (by omega)

/-- The parse errors of the generated codec, one constructor per returned
Go error. -/
inductive PErr where
  | eof
  | intOverflow
  | invalidLength
  | unexpectedEndOfGroup
  | endGroupForNonGroup
  | illegalTag
  | wrongWireType (field : Nat)
  | illegalWireType (wt : Nat)
deriving DecidableEq

/-- The varint-reading loop of `Unmarshal`/`skipTypes`: overflow check at
the top of each iteration (so at most ten bytes), then the
end-of-buffer check, then accumulate seven bits (64-bit wrapping `or`).
Returns the value and the unread remainder. -/
def readUvarintAux : Nat → Nat → List Nat → Except PErr (Nat × List Nat)
  | shift, _, [] =>
    if shift ≥ 64 then .error .intOverflow else .error .eof
  | shift, acc, b :: rest =>
    if shift ≥ 64 then .error .intOverflow
    else
      let acc2 := acc ||| ((b &&& 0x7F) <<< shift) % 2 ^ 64
      if b < 0x80 then .ok (acc2, rest)
      else readUvarintAux (shift + 7) acc2 rest

/-- Read one varint from the head of the buffer. -/
def readUvarint (l : List Nat) : Except PErr (Nat × List Nat) :=
  readUvarintAux 0 0 l

theorem readUvarintAux_ok_length :
    ∀ (l : List Nat) (sh acc v : Nat) (rest : List Nat),
      readUvarintAux sh acc l = .ok (v, rest) → rest.length < l.length := by
  intro l
  induction l with
  | nil =>
    intro sh acc v rest h
    unfold readUvarintAux at h
    split at h <;> simp_all
  | cons b bs ih =>
    intro sh acc v rest h
    unfold readUvarintAux at h
    split at h
    · simp_all
    · split at h
      · simp only [Except.ok.injEq, Prod.mk.injEq] at h
        simp [← h.2]
      · have := ih _ _ _ _ h
        simp only [List.length_cons]
        omega

theorem readUvarint_ok_length {l : List Nat} {v : Nat} {rest : List Nat}
    (h : readUvarint l = .ok (v, rest)) : rest.length < l.length :=
  readUvarintAux_ok_length l 0 0 v rest h

/-- The packed-repeated-field loop of `Unmarshal` (`for iNdEx < postIndex`):
`n` is the number of bytes still owed to the packed region; each varint
read advances by the bytes it consumed (a varint may overrun the region,
ending the loop, exactly as the index-based Go loop does). -/
def parsePackedElems (n : Nat) (l : List Nat) : Except PErr (List Nat × List Nat) :=
  if n = 0 then .ok ([], l)
  else
    match h : readUvarint l with
    | .error e => .error e
    | .ok (v, rest) =>
      match parsePackedElems (n - (l.length - rest.length)) rest with
      | .error e => .error e
      | .ok (vs, rest2) => .ok (v :: vs, rest2)
termination_by n
decreasing_by
  have := readUvarint_ok_length h
  omega

theorem parsePackedElems_ok_length :
    ∀ (n : Nat) (l vs rest : List Nat),
      parsePackedElems n l = .ok (vs, rest) → rest.length ≤ l.length := by
  intro n
  induction n using Nat.strong_induction_on with
  | _ n ih =>
    intro l vs rest h
    rw [parsePackedElems] at h
    split at h
    · simp only [Except.ok.injEq, Prod.mk.injEq] at h
      simp [← h.2]
    · rename_i hn
      split at h
      · simp_all
      · rename_i v rest1 hread
        split at h
        · simp_all
        · rename_i vs1 rest2 hrec
          simp only [Except.ok.injEq, Prod.mk.injEq] at h
          obtain ⟨hvs, hrest⟩ := h
          subst hrest
          have hlt := readUvarint_ok_length hread
          have := ih (n - (l.length - rest1.length)) (by omega) rest1 vs1 rest2 hrec
          omega


/-- The outcome of one iteration of the `skipTypes` loop: an error, a
normal return carrying the absolute index, or another iteration with the
new (remaining bytes, absolute index, depth) state. -/
inductive SkipRes where
  | fail (e : PErr)
  | ret (n : Nat)
  | next (rest : List Nat) (done depth : Nat)
deriving DecidableEq

/-- One iteration of the `skipTypes` loop on a non-empty buffer: read the
tag varint, dispatch on the wire type (0 varint, 1 eight bytes, 2
length-prefixed, 3/4 group nesting, 5 four bytes), then the source's
negative-index check and, at depth zero, the return.  Wire types 1, 2 and
5 advance the index without a bounds check, exactly as the source does. -/
def skipStep (b : Nat) (bs : List Nat) (done depth : Nat) : SkipRes :=
  match readUvarint (b :: bs) with
  | .error e => .fail e
  | .ok (wire, rest) =>
    let done2 := done + ((b :: bs).length - rest.length)
    let wireType := wire &&& 7
    if wireType = 0 then
      match readUvarint rest with
      | .error e => .fail e
      | .ok (_, r2) =>
        let done3 := done2 + (rest.length - r2.length)
        if wrap64 (done3 : Int) < 0 then .fail .invalidLength
        else if depth = 0 then .ret done3
        else .next r2 done3 depth
    else if wireType = 1 then
      if wrap64 ((done2 : Int) + 8) < 0 then .fail .invalidLength
      else if depth = 0 then .ret (done2 + 8)
      else .next (rest.drop 8) (done2 + 8) depth
    else if wireType = 2 then
      match readUvarint rest with
      | .error e => .fail e
      | .ok (lv, r2) =>
        let li := toInt64 lv
        if li < 0 then .fail .invalidLength
        else
          let done3 := done2 + (rest.length - r2.length) + li.toNat
          if wrap64 (done3 : Int) < 0 then .fail .invalidLength
          else if depth = 0 then .ret done3
          else .next (r2.drop li.toNat) done3 depth
    else if wireType = 3 then
      if wrap64 (done2 : Int) < 0 then .fail .invalidLength
      else .next rest done2 (depth + 1)
    else if wireType = 4 then
      if depth = 0 then .fail .unexpectedEndOfGroup
      else
        if wrap64 (done2 : Int) < 0 then .fail .invalidLength
        else if depth - 1 = 0 then .ret done2
        else .next rest done2 (depth - 1)
    else if wireType = 5 then
      if wrap64 ((done2 : Int) + 4) < 0 then .fail .invalidLength
      else if depth = 0 then .ret (done2 + 4)
      else .next (rest.drop 4) (done2 + 4) depth
    else .fail (.illegalWireType wireType)


set_option maxHeartbeats 1600000 in
theorem skipStep_next_length {b : Nat} {bs : List Nat} {done depth : Nat}
    {rest : List Nat} {d2 p2 : Nat}
    (h : skipStep b bs done depth = .next rest d2 p2) :
    rest.length ≤ bs.length := by
  cases hread : readUvarint (b :: bs) with
  | error e =>
    unfold skipStep at h
    rw [hread] at h
    exact SkipRes.noConfusion h
  | ok p =>
    obtain ⟨wire, rest1⟩ := p
    have h1 : rest1.length < (b :: bs).length := readUvarint_ok_length hread
    simp only [List.length_cons] at h1
    unfold skipStep at h
    rw [hread] at h
    simp only [] at h
    cases hread2 : readUvarint rest1 with
    | error e2 =>
      rw [hread2] at h
      simp only [] at h
      repeat' split at h
      all_goals
        first
        | exact SkipRes.noConfusion h
        | (injection h with ha hb hc
           rw [← ha]
           try simp only [List.length_drop]
           omega)
    | ok p2 =>
      obtain ⟨v2, r2⟩ := p2
      have h2 : r2.length < rest1.length := readUvarint_ok_length hread2
      rw [hread2] at h
      simp only [] at h
      repeat' split at h
      all_goals
        first
        | exact SkipRes.noConfusion h
        | (injection h with ha hb hc
           rw [← ha]
           try simp only [List.length_drop]
           omega)

set_option maxHeartbeats 1600000 in
theorem skipStep_next_done {b : Nat} {bs : List Nat} {done depth : Nat}
    {rest : List Nat} {d2 p2 : Nat}
    (h : skipStep b bs done depth = .next rest d2 p2) :
    done < d2 := by
  cases hread : readUvarint (b :: bs) with
  | error e =>
    unfold skipStep at h
    rw [hread] at h
    exact SkipRes.noConfusion h
  | ok p =>
    obtain ⟨wire, rest1⟩ := p
    have h1 : rest1.length < (b :: bs).length := readUvarint_ok_length hread
    simp only [List.length_cons] at h1
    unfold skipStep at h
    rw [hread] at h
    simp only [] at h
    cases hread2 : readUvarint rest1 with
    | error e2 =>
      rw [hread2] at h
      simp only [] at h
      repeat' split at h
      all_goals
        first
        | exact SkipRes.noConfusion h
        | (injection h with ha hb hc
           rw [← hb]
           simp only [List.length_cons]
           omega)
    | ok p2 =>
      obtain ⟨v2, r2⟩ := p2
      have h2 : r2.length < rest1.length := readUvarint_ok_length hread2
      rw [hread2] at h
      simp only [] at h
      repeat' split at h
      all_goals
        first
        | exact SkipRes.noConfusion h
        | (injection h with ha hb hc
           rw [← hb]
           simp only [List.length_cons]
           omega)

set_option maxHeartbeats 1600000 in
theorem skipStep_ret_done {b : Nat} {bs : List Nat} {done depth : Nat}
    {n : Nat} (h : skipStep b bs done depth = .ret n) : done < n := by
  cases hread : readUvarint (b :: bs) with
  | error e =>
    unfold skipStep at h
    rw [hread] at h
    exact SkipRes.noConfusion h
  | ok p =>
    obtain ⟨wire, rest1⟩ := p
    have h1 : rest1.length < (b :: bs).length := readUvarint_ok_length hread
    simp only [List.length_cons] at h1
    unfold skipStep at h
    rw [hread] at h
    simp only [] at h
    cases hread2 : readUvarint rest1 with
    | error e2 =>
      rw [hread2] at h
      simp only [] at h
      repeat' split at h
      all_goals
        first
        | exact SkipRes.noConfusion h
        | (injection h with ha
           rw [← ha]
           simp only [List.length_cons]
           omega)
    | ok p2 =>
      obtain ⟨v2, r2⟩ := p2
      have h2 : r2.length < rest1.length := readUvarint_ok_length hread2
      rw [hread2] at h
      simp only [] at h
      repeat' split at h
      all_goals
        first
        | exact SkipRes.noConfusion h
        | (injection h with ha
           rw [← ha]
           simp only [List.length_cons]
           omega)

/-- The loop of `skipTypes` (`for iNdEx < l` over the remaining bytes,
with the group `depth`): on an empty remainder the source falls out of the
loop and reports an unexpected end of file. -/
def skipLoop : List Nat → Nat → Nat → Except PErr Nat
  | [], _, _ => .error .eof
  | b :: bs, done, depth =>
    match h : skipStep b bs done depth with
    | .fail e => .error e
    | .ret n => .ok n
    | .next rest done2 depth2 => skipLoop rest done2 depth2
termination_by l _ _ => l.length
decreasing_by
  have := skipStep_next_length h
  simp only [List.length_cons]
  omega

/-- `skipTypes`: number of bytes occupied by one unknown field at the head
of the buffer (an absolute index that may exceed the buffer length). -/
def skipTypes (l : List Nat) : Except PErr Nat := skipLoop l 0 0

theorem skipLoop_ok_lower :
    ∀ (k : Nat) (l : List Nat), l.length ≤ k →
      ∀ (done depth n : Nat), skipLoop l done depth = .ok n → done < n := by
  intro k
  induction k with
  | zero =>
    intro l hl done depth n h
    have hnil : l = [] := List.eq_nil_of_length_eq_zero (by omega)
    subst hnil
    simp [skipLoop] at h
  | succ k ih =>
    intro l hl done depth n h
    match l with
    | [] => simp [skipLoop] at h
    | b :: bs =>
      rw [skipLoop] at h
      split at h
      · simp_all
      · rename_i hstep
        simp only [Except.ok.injEq] at h
        subst h
        exact skipStep_ret_done hstep
      · rename_i rest done2 depth2 hstep
        have hlen := skipStep_next_length hstep
        have hdone := skipStep_next_done hstep
        have := ih rest (by simp only [List.length_cons] at hl; omega) _ _ _ h
        omega

theorem skipTypes_ok_pos {l : List Nat} {n : Nat} (h : skipTypes l = .ok n) :
    1 ≤ n :=
  skipLoop_ok_lower l.length l (le_refl _) 0 0 n h

/-- The outcome of one iteration of the main `Unmarshal` loop: an error or
another iteration with the new (remaining bytes, absolute index, `Bits`,
`Elems`) state. -/
inductive UStep where
  | fail (e : PErr)
  | next (rest : List Nat) (done : Nat) (bits : Int) (elems : List Nat)
deriving DecidableEq

/-- One iteration of the `Unmarshal` loop on a non-empty buffer: read the
tag, reject end-group wire types and non-positive field numbers (the
`int32` cast of `wire >> 3`), then field 1 (`Bits`, varint, assembled with
the same wrapping accumulation and stored through the `int64` cast), field
2 (`Elems`, a single varint or a length-delimited packed run, appended),
or `skipTypes` for unknown fields, with the source's negative-index and
bounds checks. -/
def unmarshalStep (b : Nat) (bs : List Nat) (done : Nat) (bits : Int)
    (elems : List Nat) : UStep :=
  match readUvarint (b :: bs) with
  | .error e => .fail e
  | .ok (wire, rest) =>
    let done2 := done + ((b :: bs).length - rest.length)
    let wireType := wire &&& 7
    let fieldNum := toInt32 (wire >>> 3)
    if wireType = 4 then .fail .endGroupForNonGroup
    else if fieldNum ≤ 0 then .fail .illegalTag
    else if fieldNum = 1 then
      if wireType ≠ 0 then .fail (.wrongWireType 1)
      else
        match readUvarint rest with
        | .error e => .fail e
        | .ok (v, r2) => .next r2 (done2 + (rest.length - r2.length)) (toInt64 v) elems
    else if fieldNum = 2 then
      if wireType = 0 then
        match readUvarint rest with
        | .error e => .fail e
        | .ok (v, r2) =>
          .next r2 (done2 + (rest.length - r2.length)) bits (elems ++ [v])
      else if wireType = 2 then
        match readUvarint rest with
        | .error e => .fail e
        | .ok (plv, r2) =>
          let pl := toInt64 plv
          if pl < 0 then .fail .invalidLength
          else
            let done3 := done2 + (rest.length - r2.length)
            if wrap64 ((done3 : Int) + pl) < 0 then .fail .invalidLength
            else if (done3 : Int) + pl > (done3 : Int) + (r2.length : Int) then .fail .eof
            else
              match parsePackedElems pl.toNat r2 with
              | .error e => .fail e
              | .ok (vs, r3) =>
                .next r3 (done3 + (r2.length - r3.length)) bits (elems ++ vs)
      else .fail (.wrongWireType 2)
    else
      match skipTypes (b :: bs) with
      | .error e => .fail e
      | .ok skippy =>
        if wrap64 ((done : Int) + (skippy : Int)) < 0 then .fail .invalidLength
        else if (done : Int) + (skippy : Int) > (done : Int) + ((b :: bs).length : Int) then
          .fail .eof
        else .next ((b :: bs).drop skippy) (done + skippy) bits elems

set_option maxHeartbeats 1600000 in
theorem unmarshalStep_next_length {b : Nat} {bs : List Nat} {done : Nat}
    {bits : Int} {elems : List Nat} {rest : List Nat} {d2 : Nat} {b2 : Int}
    {e2 : List Nat}
    (h : unmarshalStep b bs done bits elems = .next rest d2 b2 e2) :
    rest.length ≤ bs.length := by
  cases hread : readUvarint (b :: bs) with
  | error e =>
    unfold unmarshalStep at h
    rw [hread] at h
    exact UStep.noConfusion h
  | ok p =>
    obtain ⟨wire, rest1⟩ := p
    have h1 : rest1.length < (b :: bs).length := readUvarint_ok_length hread
    simp only [List.length_cons] at h1
    unfold unmarshalStep at h
    rw [hread] at h
    simp only [] at h
    cases hread2 : readUvarint rest1 with
    | error er2 =>
      rw [hread2] at h
      simp only [] at h
      cases hskip : skipTypes (b :: bs) with
      | error es =>
        rw [hskip] at h
        simp only [] at h
        repeat' split at h
        all_goals
          first
          | exact UStep.noConfusion h
          | (injection h with ha hb hc hd
             rw [← ha]
             try simp only [List.length_drop]
             omega)
      | ok skippy =>
        have hs1 := skipTypes_ok_pos hskip
        rw [hskip] at h
        simp only [] at h
        repeat' split at h
        all_goals
          first
          | exact UStep.noConfusion h
          | (injection h with ha hb hc hd
             rw [← ha]
             try simp only [List.length_drop, List.length_cons]
             omega)
    | ok p2 =>
      obtain ⟨plv, r2⟩ := p2
      have h2 : r2.length < rest1.length := readUvarint_ok_length hread2
      rw [hread2] at h
      simp only [] at h
      cases hparse : parsePackedElems (toInt64 plv).toNat r2 with
      | error ep =>
        rw [hparse] at h
        simp only [] at h
        cases hskip : skipTypes (b :: bs) with
        | error es =>
          rw [hskip] at h
          simp only [] at h
          repeat' split at h
          all_goals
            first
            | exact UStep.noConfusion h
            | (injection h with ha hb hc hd
               rw [← ha]
               try simp only [List.length_drop]
               omega)
        | ok skippy =>
          have hs1 := skipTypes_ok_pos hskip
          rw [hskip] at h
          simp only [] at h
          repeat' split at h
          all_goals
            first
            | exact UStep.noConfusion h
            | (injection h with ha hb hc hd
               rw [← ha]
               try simp only [List.length_drop, List.length_cons]
               omega)
      | ok pp =>
        obtain ⟨vs, r3⟩ := pp
        have h3 : r3.length ≤ r2.length :=
          parsePackedElems_ok_length (toInt64 plv).toNat r2 vs r3 hparse
        rw [hparse] at h
        simp only [] at h
        cases hskip : skipTypes (b :: bs) with
        | error es =>
          rw [hskip] at h
          simp only [] at h
          repeat' split at h
          all_goals
            first
            | exact UStep.noConfusion h
            | (injection h with ha hb hc hd
               rw [← ha]
               try simp only [List.length_drop]
               omega)
        | ok skippy =>
          have hs1 := skipTypes_ok_pos hskip
          rw [hskip] at h
          simp only [] at h
          repeat' split at h
          all_goals
            first
            | exact UStep.noConfusion h
            | (injection h with ha hb hc hd
               rw [← ha]
               try simp only [List.length_drop, List.length_cons]
               omega)

/-- The main loop of `(*BitArray).Unmarshal` (`for iNdEx < l`): at the end
of the buffer it returns the accumulated message. -/
def unmarshalLoop : List Nat → Nat → Int → List Nat → Except PErr BitArray
  | [], _, bits, elems => .ok ⟨bits, elems⟩
  | b :: bs, done, bits, elems =>
    match h : unmarshalStep b bs done bits elems with
    | .fail e => .error e
    | .next rest done2 bits2 elems2 => unmarshalLoop rest done2 bits2 elems2
termination_by l _ _ _ => l.length
decreasing_by
  have := unmarshalStep_next_length h
  simp only [List.length_cons]
  omega

/-- `(*BitArray).Unmarshal` run on a fresh (`Reset`) message, as the proto
machinery does when decoding. -/
def BitArray.Unmarshal (dAtA : List Nat) : Except PErr BitArray :=
  unmarshalLoop dAtA 0 0 []

/-- `(*BitArray).Marshal` via `MarshalToSizedBuffer`, which fills the
exactly-`Size()`d buffer from the end: the `Elems` field (tag `0x12`, the
payload length, then each word as a varint) is written at the back and the
`Bits` field (tag `0x8`, the `uint64` cast of the count) in front of it,
so the wire bytes are the concatenation below; a zero `Bits` and an empty
`Elems` are omitted. -/
def BitArray.Marshal (m : BitArray) : List Nat :=
  let payload := (m.Elems.map putUvarint).flatten
  (if m.Bits ≠ 0 then 8 :: putUvarint ((m.Bits % (2 ^ 64 : Int)).toNat) else []) ++
    (if 0 < m.Elems.length then 18 :: (putUvarint payload.length ++ payload) else [])

/-! ## Concrete instances used by counterexamples and witnesses -/

/-- Propositional equality of `Except` results is decidable componentwise
(needed so concrete verifier runs can be checked by `decide`). -/
instance {e a : Type} [DecidableEq e] [DecidableEq a] :
    DecidableEq (Except e a) := fun x y =>
  match x, y with
  | .ok v, .ok w =>
    if h : v = w then .isTrue (by rw [h]) else .isFalse (fun hc => h (Except.ok.inj hc))
  | .error v, .error w =>
    if h : v = w then .isTrue (by rw [h]) else .isFalse (fun hc => h (Except.error.inj hc))
  | .ok _, .error _ => .isFalse (fun hc => Except.noConfusion hc)
  | .error _, .ok _ => .isFalse (fun hc => Except.noConfusion hc)

/-- A signature oracle that accepts everything (the honest-signatures
scenario). -/
def vTrue : SigVerifier := fun _ _ _ => true

/-- A trivial sign-bytes oracle. -/
def sbNil : SignBytes := fun _ _ _ => []

/-- The voter set reachable through `VoterSetFromProto` whose cached total
is zero while its single voter has power 5. -/
def c6Set : VoterSet := ⟨[⟨[1], 0, 5⟩], 0⟩

/-- A single voter with power 10 at address `[1]`. -/
def c2Voters : VoterSet := ⟨[⟨[1], 0, 10⟩], 10⟩

/-- A for-block signature by address `[1]`. -/
def c2Sig : CommitSig := ⟨.forBlock, [1], []⟩

/-- A commit carrying the same for-block signature twice. -/
def c2Commit : Commit := ⟨1, 0, [c2Sig, c2Sig]⟩

/-! ## Shared helper lemmas -/

theorem wrap64_eq_self {x : Int} (h1 : -(2 ^ 63) ≤ x) (h2 : x < 2 ^ 63) :
    wrap64 x = x := by
  unfold wrap64
  omega

theorem talliedPairs_nil : talliedPairs [] = 0 := rfl

theorem talliedPairs_cons (v : Validator) (cs : CommitSig)
    (rest : List (Validator × CommitSig)) :
    talliedPairs ((v, cs) :: rest) =
      (if cs.ForBlock then v.votingPower else 0) + talliedPairs rest := by
  unfold talliedPairs
  by_cases h : cs.ForBlock
  · simp [List.filter_cons, h]
  · simp [List.filter_cons, h]

theorem talliedPairs_nonneg {l : List (Validator × CommitSig)}
    (h : ∀ p ∈ l, 0 ≤ p.1.votingPower) : 0 ≤ talliedPairs l := by
  induction l with
  | nil => simp [talliedPairs_nil]
  | cons hd tl ih =>
    obtain ⟨v, cs⟩ := hd
    rw [talliedPairs_cons]
    have hv : 0 ≤ v.votingPower := h (v, cs) (by simp)
    have ht := ih (fun p hp => h p (by simp [hp]))
    by_cases hfb : cs.ForBlock <;> simp [hfb] <;> omega

/-! ## Claims -/

/-- C9: an empty voter set encodes by `ToProto` to the empty wire message
with no error, while `VoterSetFromProto` applied to that empty message is
rejected by `ValidateBasic` as nil-or-empty, so the round trip fails with
an error exactly on the empty set. -/
theorem c9_empty_roundtrip_fails (vs : VoterSet) (h : vs.Voters = []) :
    vs.ToProto = .ok ⟨[], 0⟩ ∧
      VoterSetFromProto (some ⟨[], 0⟩) = .error "voter set is nil or empty" := by
  constructor
  · unfold VoterSet.ToProto VoterSet.IsNilOrEmpty
    simp [h]
  · rfl

theorem c9_empty_roundtrip_fails_witness :
    VoterSet.ToProto ⟨[], 7⟩ = .ok ⟨[], 0⟩ ∧
      VoterSetFromProto (some ⟨[], 0⟩) = .error "voter set is nil or empty" :=
  c9_empty_roundtrip_fails ⟨[], 7⟩ rfl

/-- C6 counterexample: through `VoterSetFromProto` the code constructs a
voter set whose cached total voting power is zero while its single voter
has power 5; on that set `TotalVotingPower()` does not merely read the
cached field and leave the receiver unchanged — it recomputes the sum and
mutates the cached field to 5. -/
theorem c6_counterexample :
    VoterSetFromProto (some ⟨[⟨[1], 0, 5⟩], 0⟩) = .ok c6Set ∧
      c6Set.totalVotingPower = 0 ∧
      c6Set.totalVotingPowerRead ≠ some (c6Set.totalVotingPower, c6Set) ∧
      c6Set.totalVotingPowerRead = some (5, ⟨[⟨[1], 0, 5⟩], 5⟩) := by
  refine ⟨rfl, rfl, ?_, rfl⟩
  decide

/-- C6 (amended): for voter sets built by `NewVoterSet` the cached total
is computed eagerly at construction (it equals the clipped sum of the
voters), and `TotalVotingPower()` returns exactly the cached field and
leaves the receiver unchanged — the lazy recomputation can still fire when
the cached field is zero, but then writes back the identical value. -/
theorem c6_amended_eager_cache_stable (valz : List Validator) (vs : VoterSet)
    (h : NewVoterSet valz = some vs) :
    updateTotalVotingPower vs.Voters = some vs.totalVotingPower ∧
      vs.totalVotingPowerRead = some (vs.totalVotingPower, vs) := by
  unfold NewVoterSet at h
  cases hu : updateTotalVotingPower (sortByAddress valz) with
  | none => rw [hu] at h; exact absurd h (by simp)
  | some s =>
    rw [hu] at h
    simp only [Option.some.injEq] at h
    subst h
    refine ⟨hu, ?_⟩
    unfold VoterSet.totalVotingPowerRead
    by_cases hs : s = 0
    · subst hs
      simp [hu]
    · simp [hs]

theorem c6_amended_eager_cache_stable_witness :
    updateTotalVotingPower (VoterSet.mk [⟨[1], 0, 3⟩] 3).Voters = some 3 ∧
      (VoterSet.mk [⟨[1], 0, 3⟩] 3).totalVotingPowerRead =
        some (3, VoterSet.mk [⟨[1], 0, 3⟩] 3) :=
  c6_amended_eager_cache_stable [⟨[1], 0, 3⟩] ⟨[⟨[1], 0, 3⟩], 3⟩ (by decide)

/-- C7: `VerifyCommitLightTrusting` rejects a zero trust-level denominator
outright, reports a distinct overflow error when multiplying the total
voting power by the numerator leaves `int64` (never wrapping silently),
and otherwise uses exactly the threshold `(total * numerator) / denominator`
(visible in the `needed` component of the insufficient-power error); in
the two error cases the conclusion holds for every commit, so no signature
is examined. -/
theorem c7_trust_level_checks (verify : SigVerifier) (signBytes : SignBytes)
    (chainID : String) (voters : VoterSet) (commit : Commit)
    (trustLevel : Fraction) :
    (trustLevel.den = 0 →
      VerifyCommitLightTrusting verify signBytes chainID voters commit trustLevel =
        some (.error .zeroDenominator)) ∧
    (∀ total : Int, trustLevel.den ≠ 0 →
      voters.TotalVotingPower = some total →
      (safeMul total (toInt64 trustLevel.num)).2 = true →
      VerifyCommitLightTrusting verify signBytes chainID voters commit trustLevel =
        some (.error .trustOverflow)) ∧
    (∀ (total p tallied : Int) (seen : List (Nat × Nat)), trustLevel.den ≠ 0 →
      voters.TotalVotingPower = some total →
      safeMul total (toInt64 trustLevel.num) = (p, false) →
      vcltLoop verify (signBytes chainID commit) voters
          (p.tdiv (toInt64 trustLevel.den)) (List.enumFrom 0 commit.signatures)
          0 [] = .inr (tallied, seen) →
      VerifyCommitLightTrusting verify signBytes chainID voters commit trustLevel =
        some (.error (.notEnoughVotingPower tallied
          (p.tdiv (toInt64 trustLevel.den))))) := by
  refine ⟨?_, ?_, ?_⟩
  · intro h
    simp [VerifyCommitLightTrusting, h]
  · intro total hden htot hmul
    simp [VerifyCommitLightTrusting, hden, htot, hmul]
  · intro total p tallied seen hden htot hmul hloop
    simp [VerifyCommitLightTrusting, hden, htot, hmul, hloop]

theorem c7_trust_level_checks_witness :
    (VerifyCommitLightTrusting vTrue sbNil "" ⟨[], 1⟩ ⟨0, 0, []⟩ ⟨1, 0⟩ =
      some (.error .zeroDenominator)) ∧
    (VerifyCommitLightTrusting vTrue sbNil "" ⟨[], 2 ^ 62⟩ ⟨0, 0, []⟩ ⟨4, 1⟩ =
      some (.error .trustOverflow)) ∧
    (VerifyCommitLightTrusting vTrue sbNil "" ⟨[], 1⟩ ⟨0, 0, []⟩ ⟨1, 1⟩ =
      some (.error (.notEnoughVotingPower 0 1))) := by
  refine ⟨(c7_trust_level_checks vTrue sbNil "" ⟨[], 1⟩ ⟨0, 0, []⟩ ⟨1, 0⟩).1 rfl,
    (c7_trust_level_checks vTrue sbNil "" ⟨[], 2 ^ 62⟩ ⟨0, 0, []⟩ ⟨4, 1⟩).2.1
      (2 ^ 62) (by decide) (by decide) (by decide), ?_⟩
  have h := (c7_trust_level_checks vTrue sbNil "" ⟨[], 1⟩ ⟨0, 0, []⟩ ⟨1, 1⟩).2.2
    1 1 0 [] (by decide) (by decide) (by decide) (by decide)
  simpa using h

/-- C2 counterexample: a commit whose two for-block signatures at distinct
indices 0 and 1 carry the same voter address, given to
`VerifyCommitLightTrusting` with trust level 1/3: the first signature
alone pushes the tally (10) past the threshold (3), so the scan returns
success before ever seeing the repeated address — no double-vote error is
produced, contradicting the claim's "regardless of whether the threshold
would otherwise already be exceeded". -/
theorem c2_counterexample :
    c2Commit.signatures = [c2Sig, c2Sig] ∧
      c2Sig.ForBlock = true ∧
      (c2Voters.GetByAddress c2Sig.validatorAddress).isSome = true ∧
      VerifyCommitLightTrusting vTrue sbNil "" c2Voters c2Commit ⟨1, 3⟩ =
        some (.ok ()) := by
  refine ⟨rfl, rfl, ?_, ?_⟩ <;> decide

theorem vcltLoop_append (verify : SigVerifier) (sb : Nat → Bytes)
    (voters : VoterSet) (needed : Int) (a b : List (Nat × CommitSig)) :
    ∀ (t : Int) (s : List (Nat × Nat)),
      vcltLoop verify sb voters needed (a ++ b) t s =
        match vcltLoop verify sb voters needed a t s with
        | .inl r => .inl r
        | .inr st => vcltLoop verify sb voters needed b st.1 st.2 := by
  induction a with
  | nil => intro t s; simp [vcltLoop]
  | cons hd tl ih =>
    intro t s
    obtain ⟨idx, cs⟩ := hd
    simp only [List.cons_append]
    by_cases hfb : cs.ForBlock = false
    · simp only [vcltLoop, hfb, if_pos]
      exact ih t s
    · cases hget : voters.GetByAddress cs.validatorAddress with
      | none =>
        simp only [vcltLoop, hfb, if_neg, hget]
        exact ih t s
      | some pr =>
        obtain ⟨vIdx, voter⟩ := pr
        cases hseen : lookupSeen s vIdx with
        | some fi => simp [vcltLoop, hfb, hget, hseen]
        | none =>
          by_cases hv : verify voter.pubKey (sb idx) cs.signature = false
          · simp [vcltLoop, hfb, hget, hseen, hv]
          · by_cases ht : wrap64 (t + voter.votingPower) > needed
            · simp [vcltLoop, hfb, hget, hseen, hv, ht]
            · simp [vcltLoop, hfb, hget, hseen, hv, ht, ih]

/-- C2 (amended): `VerifyCommitLightTrusting` reports a double-vote error
naming both indices whenever a for-block signature at index `j` repeats
the address of an earlier matched for-block signature recorded at index
`i`, provided the scan of the signatures before `j` ran to completion —
i.e. the tally did not strictly exceed the threshold earlier (the code's
early success) and no earlier signature failed verification.  (As the
counterexample shows, the claim's "regardless of the threshold" clause
fails: the early exit can pre-empt the double-vote check.) -/
theorem c2_amended_double_vote (verify : SigVerifier) (signBytes : SignBytes)
    (chainID : String) (voters : VoterSet) (commit : Commit)
    (trustLevel : Fraction) (total p needed : Int) (j vIdx i : Nat)
    (sig_j : CommitSig) (voter : Validator) (t : Int)
    (seen : List (Nat × Nat)) (hj : j < commit.signatures.length)
    (hden : trustLevel.den ≠ 0)
    (htot : voters.TotalVotingPower = some total)
    (hmul : safeMul total (toInt64 trustLevel.num) = (p, false))
    (hneeded : needed = p.tdiv (toInt64 trustLevel.den))
    (hsig : commit.signatures.get ⟨j, hj⟩ = sig_j)
    (hfb : sig_j.ForBlock = true)
    (hget : voters.GetByAddress sig_j.validatorAddress = some (vIdx, voter))
    (hpre : vcltLoop verify (signBytes chainID commit) voters needed
        (List.enumFrom 0 (commit.signatures.take j)) 0 [] = .inr (t, seen))
    (hseen : lookupSeen seen vIdx = some i) :
    VerifyCommitLightTrusting verify signBytes chainID voters commit trustLevel =
      some (.error (.doubleVote i j)) := by
  subst hneeded
  have hget_j : commit.signatures[j] = sig_j := by
    rw [← hsig]
    simp [List.get_eq_getElem]
  have hlen : (commit.signatures.take j).length = j := by
    simp [List.length_take]
    omega
  have hsplit : List.enumFrom 0 commit.signatures =
      List.enumFrom 0 (commit.signatures.take j) ++
        (j, sig_j) :: List.enumFrom (j + 1) (commit.signatures.drop (j + 1)) := by
    conv_lhs => rw [← List.take_append_drop j commit.signatures]
    rw [List.enumFrom_append, List.drop_eq_getElem_cons hj, List.enumFrom_cons,
      hlen, hget_j]
    simp
  unfold VerifyCommitLightTrusting
  rw [if_neg hden]
  simp only [htot]
  simp only [hmul]
  rw [hsplit, vcltLoop_append, hpre]
  simp only [vcltLoop, hfb, hget, hseen]
  simp

theorem c2_amended_double_vote_witness :
    VerifyCommitLightTrusting vTrue sbNil "" ⟨[⟨[1], 0, 1⟩], 1⟩
        ⟨1, 0, [⟨.forBlock, [1], []⟩, ⟨.forBlock, [1], []⟩]⟩ ⟨1, 1⟩ =
      some (.error (.doubleVote 0 1)) := by
  exact c2_amended_double_vote vTrue sbNil "" ⟨[⟨[1], 0, 1⟩], 1⟩
    ⟨1, 0, [⟨.forBlock, [1], []⟩, ⟨.forBlock, [1], []⟩]⟩ ⟨1, 1⟩ 1 1 1 1 0 0
    ⟨.forBlock, [1], []⟩ ⟨[1], 0, 1⟩ 1 [(0, 0)] (by decide) (by decide)
    (by decide) (by decide) (by decide) rfl (by decide) (by decide) (by decide)
    (by decide)

/-- C3: when the proof hash is empty or the validator-set size is at most
`MaxVoters`, `SelectVoter` returns the entire validator list with every
validator (hence every voting power) unchanged; under the validator set's
invariants — an address-sorted list and a cached total that is either
unset or the clipped sum — the result is address-sorted and its total
voting power equals the validator set's total. -/
theorem c3_selectVoter_passthrough (maxVoters : Nat)
    (validators : ValidatorSet) (proofHash : Bytes) (s : Int)
    (hbranch : proofHash.length = 0 ∨ validators.Validators.length ≤ maxVoters)
    (hs : updateTotalVotingPower validators.Validators = some s)
    (hcache : validators.totalVotingPower = 0 ∨ validators.totalVotingPower = s)
    (hsorted : List.Pairwise addrLt validators.Validators) :
    SelectVoter maxVoters validators proofHash = some ⟨validators.Validators, s⟩ ∧
      List.Pairwise addrLt validators.Validators ∧
      validators.TotalVotingPower = some s := by
  refine ⟨?_, hsorted, ?_⟩
  · unfold SelectVoter
    rw [if_pos hbranch]
    simp only [hs]
  · unfold ValidatorSet.TotalVotingPower
    by_cases hz : validators.totalVotingPower = 0
    · rw [if_pos hz]
      exact hs
    · rw [if_neg hz]
      rcases hcache with h0 | hs2
      · exact absurd h0 hz
      · rw [hs2]

theorem c3_selectVoter_passthrough_witness :
    SelectVoter 20 ⟨[⟨[1], 0, 2⟩, ⟨[2], 0, 3⟩], 5⟩ [] =
        some ⟨[⟨[1], 0, 2⟩, ⟨[2], 0, 3⟩], 5⟩ ∧
      List.Pairwise addrLt [⟨[1], 0, 2⟩, ⟨[2], 0, 3⟩] ∧
      ValidatorSet.TotalVotingPower ⟨[⟨[1], 0, 2⟩, ⟨[2], 0, 3⟩], 5⟩ = some 5 :=
  c3_selectVoter_passthrough 20 ⟨[⟨[1], 0, 2⟩, ⟨[2], 0, 3⟩], 5⟩ [] 5
    (Or.inl rfl) (by decide) (Or.inr rfl) (by decide)

theorem talliedPairs_cons_fb {cs : CommitSig} (v : Validator)
    (rest : List (Validator × CommitSig)) (h : cs.ForBlock = true) :
    talliedPairs ((v, cs) :: rest) = v.votingPower + talliedPairs rest := by
  rw [talliedPairs_cons, if_pos h]

theorem talliedPairs_cons_nfb {cs : CommitSig} (v : Validator)
    (rest : List (Validator × CommitSig)) (h : cs.ForBlock = false) :
    talliedPairs ((v, cs) :: rest) = talliedPairs rest := by
  rw [talliedPairs_cons, if_neg (by simp [h])]
  omega

theorem verifyCommitLoop_spec (verify : SigVerifier) (sb : Nat → Bytes)
    (needed : Int) :
    ∀ (l : List (Validator × CommitSig)) (idx : Nat) (acc : Int),
      (∀ (i : Nat) (hi : i < l.length), (l.get ⟨i, hi⟩).2.Absent = false →
        verify (l.get ⟨i, hi⟩).1.pubKey (sb (idx + i))
          (l.get ⟨i, hi⟩).2.signature = true) →
      (∀ p ∈ l, 0 ≤ p.1.votingPower) →
      0 ≤ acc → acc + talliedPairs l < 2 ^ 63 →
      verifyCommitLoop verify sb needed idx acc l =
        if acc + talliedPairs l > needed then .ok ()
        else .error (.notEnoughVotingPower (acc + talliedPairs l) needed) := by
  intro l
  induction l with
  | nil =>
    intro idx acc _ _ _ _
    simp [verifyCommitLoop, talliedPairs_nil]
  | cons hd tl ih =>
    intro idx acc hver hpow hacc hbound
    obtain ⟨voter, cs⟩ := hd
    have hpow0 : 0 ≤ voter.votingPower := hpow (voter, cs) (by simp)
    have hpowtl : ∀ p ∈ tl, 0 ≤ p.1.votingPower := fun p hp => hpow p (by simp [hp])
    have htl_nonneg := talliedPairs_nonneg hpowtl
    have hver2 : ∀ (i : Nat) (hi : i < tl.length),
        (tl.get ⟨i, hi⟩).2.Absent = false →
        verify (tl.get ⟨i, hi⟩).1.pubKey (sb (idx + 1 + i))
          (tl.get ⟨i, hi⟩).2.signature = true := by
      intro i hi hab
      have hstep := hver (i + 1) (by simp only [List.length_cons]; omega) hab
      have hidx : idx + (i + 1) = idx + 1 + i := by omega
      rw [hidx] at hstep
      exact hstep
    by_cases habs : cs.Absent = true
    · have hflag : cs.flag = BlockIDFlag.absent := by
        simpa [CommitSig.Absent] using habs
      have hfb : cs.ForBlock = false := by simp [CommitSig.ForBlock, hflag]
      rw [talliedPairs_cons_nfb voter tl hfb] at hbound ⊢
      simp only [verifyCommitLoop]
      rw [if_pos habs]
      exact ih (idx + 1) acc hver2 hpowtl hacc hbound
    · have habs2 : cs.Absent = false := by revert habs; cases cs.Absent <;> simp
      have hv0 : verify voter.pubKey (sb (idx + 0)) cs.signature = true :=
        hver 0 (by simp) habs2
      rw [Nat.add_zero] at hv0
      have hvne : ¬(verify voter.pubKey (sb idx) cs.signature = false) := by
        simp [hv0]
      by_cases hfb : cs.ForBlock = true
      · rw [talliedPairs_cons_fb voter tl hfb] at hbound ⊢
        have hwrap : wrap64 (acc + voter.votingPower) = acc + voter.votingPower :=
          wrap64_eq_self (by omega) (by omega)
        simp only [verifyCommitLoop]
        rw [if_neg (by simp [habs2]), if_neg hvne, if_pos hfb, hwrap]
        rw [ih (idx + 1) (acc + voter.votingPower) hver2 hpowtl (by omega) (by omega)]
        rw [add_assoc]
      · have hfb2 : cs.ForBlock = false := by revert hfb; cases cs.ForBlock <;> simp
        rw [talliedPairs_cons_nfb voter tl hfb2] at hbound ⊢
        simp only [verifyCommitLoop]
        rw [if_neg (by simp [habs2]), if_neg hvne, if_neg (by simp [hfb2])]
        exact ih (idx + 1) acc hver2 hpowtl hacc hbound





/-- C1: under the matching preconditions (signature count, height and
block id), with every present signature verifying and the total voting
power inside its documented invariant range `[0, MaxTotalVotingPower]`
(where the source's `int64` multiplication `total * 2` does not wrap),
`VerifyCommit` succeeds exactly when the summed voting power of the
for-block signatures strictly exceeds two thirds of the total voting
power; when the tallied power is exactly two thirds of the total, the
insufficient-voting-power error is returned, so one extra unit of power
flips the outcome. -/
theorem c1_verifyCommit_threshold (verify : SigVerifier) (signBytes : SignBytes)
    (chainID : String) (blockID : Nat) (height : Int) (voters : VoterSet)
    (commit : Commit) (total : Int)
    (hlen : voters.Voters.length = commit.signatures.length)
    (hh : height = commit.height)
    (hb : blockID = commit.blockID)
    (htot : voters.TotalVotingPower = some total)
    (htotlo : 0 ≤ total)
    (htothi : total ≤ MaxTotalVotingPower)
    (hver : ∀ (i : Nat) (hi : i < (voters.Voters.zip commit.signatures).length),
      ((voters.Voters.zip commit.signatures).get ⟨i, hi⟩).2.Absent = false →
      verify ((voters.Voters.zip commit.signatures).get ⟨i, hi⟩).1.pubKey
        (signBytes chainID commit i)
        ((voters.Voters.zip commit.signatures).get ⟨i, hi⟩).2.signature = true)
    (hpow : ∀ p ∈ voters.Voters.zip commit.signatures, 0 ≤ p.1.votingPower)
    (hbound : talliedForBlock voters.Voters commit.signatures < 2 ^ 63) :
    (VerifyCommit verify signBytes chainID blockID height voters commit =
        some (.ok ()) ↔
      talliedForBlock voters.Voters commit.signatures > (total * 2).tdiv 3) ∧
    (talliedForBlock voters.Voters commit.signatures * 3 = total * 2 →
      VerifyCommit verify signBytes chainID blockID height voters commit =
        some (.error (.notEnoughVotingPower
          (talliedForBlock voters.Voters commit.signatures)
          ((total * 2).tdiv 3)))) := by
  have hb0 : (0 : Int) + talliedPairs (voters.Voters.zip commit.signatures) < 2 ^ 63 := by
    unfold talliedForBlock at hbound
    omega
  have hmax : MaxTotalVotingPower = 1152921504606846975 := by decide
  have hw : wrap64 (total * 2) = total * 2 := by
    rw [hmax] at htothi
    exact wrap64_eq_self (by omega) (by omega)
  have hver0 : ∀ (i : Nat) (hi : i < (voters.Voters.zip commit.signatures).length),
      ((voters.Voters.zip commit.signatures).get ⟨i, hi⟩).2.Absent = false →
      verify ((voters.Voters.zip commit.signatures).get ⟨i, hi⟩).1.pubKey
        (signBytes chainID commit (0 + i))
        ((voters.Voters.zip commit.signatures).get ⟨i, hi⟩).2.signature = true := by
    intro i hi hab
    rw [Nat.zero_add]
    exact hver i hi hab
  have hloop := verifyCommitLoop_spec verify (signBytes chainID commit)
    ((total * 2).tdiv 3) (voters.Voters.zip commit.signatures) 0 0 hver0 hpow
    (le_refl 0) hb0
  have hrun : VerifyCommit verify signBytes chainID blockID height voters commit =
      some (verifyCommitLoop verify (signBytes chainID commit)
        ((total * 2).tdiv 3) 0 0 (voters.Voters.zip commit.signatures)) := by
    unfold VerifyCommit
    rw [if_neg (by omega), if_neg (by simp [hh]), if_neg (by simp [hb])]
    simp only [htot]
    rw [hw]
  rw [hrun, hloop]
  unfold talliedForBlock
  rw [zero_add] at hb0 ⊢
  constructor
  · by_cases hc : talliedPairs (voters.Voters.zip commit.signatures) > (total * 2).tdiv 3
    · simp [hc]
    · simp [hc]
  · intro heq
    have hdiv : (total * 2).tdiv 3 =
        talliedPairs (voters.Voters.zip commit.signatures) := by
      rw [← heq]
      exact Int.mul_tdiv_cancel _ (by omega)
    rw [if_neg (by omega)]

theorem c1_verifyCommit_threshold_witness :
    VerifyCommit vTrue sbNil "" 0 1
        ⟨[⟨[1], 0, 1⟩, ⟨[2], 0, 1⟩, ⟨[3], 0, 1⟩], 3⟩
        ⟨1, 0, [⟨.forBlock, [1], []⟩, ⟨.forBlock, [2], []⟩, ⟨.forBlock, [3], []⟩]⟩ =
      some (.ok ()) :=
  (c1_verifyCommit_threshold vTrue sbNil "" 0 1
    ⟨[⟨[1], 0, 1⟩, ⟨[2], 0, 1⟩, ⟨[3], 0, 1⟩], 3⟩
    ⟨1, 0, [⟨.forBlock, [1], []⟩, ⟨.forBlock, [2], []⟩, ⟨.forBlock, [3], []⟩]⟩ 3
    (by decide) (by decide) (by decide) (by decide) (by decide) (by decide)
    (by decide) (by decide) (by decide)).1.mpr (by decide)

theorem validatorListToProto_ok (l : List Validator) :
    validatorListToProto l =
      .ok (l.map fun v => ProtoValidator.mk v.address v.pubKey v.votingPower) := by
  induction l with
  | nil => rfl
  | cons v vs ih => simp [validatorListToProto, Validator.ToProto, ih]

theorem validatorListFromProto_ok (l : List Validator) :
    validatorListFromProto
        (l.map fun v => ProtoValidator.mk v.address v.pubKey v.votingPower) =
      .ok l := by
  induction l with
  | nil => rfl
  | cons v vs ih => simp [validatorListFromProto, ValidatorFromProto, ih]

theorem validateVoters_ok (l : List Validator) : validateVoters l = .ok () := by
  induction l with
  | nil => rfl
  | cons v vs ih => simp [validateVoters, Validator.ValidateBasic, ih]

/-- C8: for every non-empty voter set, encoding with `ToProto` and
decoding with `VoterSetFromProto` succeeds and reproduces the original
voter list in the same order together with the exact cached total voting
power (the conversions copy fields verbatim and the decoder neither
re-sorts nor recomputes). -/
theorem c8_proto_roundtrip (vs : VoterSet) (hne : vs.Voters ≠ []) :
    voterSetRoundTrip vs = .ok vs := by
  have hnil : vs.IsNilOrEmpty = false := by
    unfold VoterSet.IsNilOrEmpty
    simp [hne]
  unfold voterSetRoundTrip VoterSet.ToProto
  rw [hnil]
  simp only [Bool.false_eq_true, if_false]
  rw [validatorListToProto_ok]
  simp only []
  unfold VoterSetFromProto
  simp only []
  rw [validatorListFromProto_ok]
  unfold VoterSet.ValidateBasic VoterSet.IsNilOrEmpty
  simp [hne, validateVoters_ok]

theorem c8_proto_roundtrip_witness :
    voterSetRoundTrip ⟨[⟨[1], 0, 2⟩], 2⟩ = .ok ⟨[⟨[1], 0, 2⟩], 2⟩ :=
  c8_proto_roundtrip ⟨[⟨[1], 0, 2⟩], 2⟩ (by decide)

theorem or_add_of_lt {a b sh : Nat} (ha : a < 2 ^ sh) :
    a ||| b * 2 ^ sh = a + b * 2 ^ sh := by
  rw [Nat.lor_comm, mul_comm]
  rw [← Nat.mul_add_lt_is_or ha]
  omega

theorem and_127_eq_mod (b : Nat) : b &&& 127 = b % 128 := by
  have h := Nat.and_pow_two_sub_one_eq_mod b 7
  norm_num at h
  exact h

theorem putUvarint_length_pos (v : Nat) : 0 < (putUvarint v).length := by
  rw [putUvarint]
  split <;> simp

theorem readUvarintAux_put (v : Nat) :
    ∀ (sh acc : Nat) (rest : List Nat), sh < 64 → v < 2 ^ (64 - sh) →
      acc < 2 ^ sh →
      readUvarintAux sh acc (putUvarint v ++ rest) = .ok (acc + v * 2 ^ sh, rest) := by
  induction v using Nat.strong_induction_on with
  | _ v ih =>
    intro sh acc rest hsh hv hacc
    rw [putUvarint]
    by_cases hsmall : v < 128
    · rw [if_pos hsmall]
      simp only [List.cons_append, List.nil_append]
      unfold readUvarintAux
      rw [if_neg (by omega)]
      have hand : v &&& 127 = v := by
        rw [and_127_eq_mod]
        omega
      have hshift : (v <<< sh) % 2 ^ 64 = v * 2 ^ sh := by
        rw [Nat.shiftLeft_eq]
        apply Nat.mod_eq_of_lt
        calc v * 2 ^ sh < 2 ^ (64 - sh) * 2 ^ sh := by
              apply Nat.mul_lt_mul_right (Nat.pos_pow_of_pos sh (by omega)) |>.mpr hv
          _ = 2 ^ 64 := by rw [← pow_add]; congr 1; omega
      rw [if_pos hsmall]
      simp only [hand, hshift]
      rw [or_add_of_lt hacc]
    · rw [if_neg hsmall]
      simp only [List.cons_append]
      unfold readUvarintAux
      rw [if_neg (by omega)]
      have hge8 : 8 ≤ 64 - sh := by
        by_contra hcon
        have : (2 : Nat) ^ (64 - sh) ≤ 2 ^ 7 := Nat.pow_le_pow_right (by omega) (by omega)
        omega
      have hand : (v % 128 + 128) &&& 127 = v % 128 := by
        rw [and_127_eq_mod]
        omega
      have hmodlt : v % 128 < 2 ^ (64 - sh) := by
        have : v % 128 < 128 := Nat.mod_lt _ (by omega)
        calc v % 128 < 128 := this
          _ = 2 ^ 7 := by norm_num
          _ ≤ 2 ^ (64 - sh) := Nat.pow_le_pow_right (by omega) (by omega)
      have hshift : ((v % 128) <<< sh) % 2 ^ 64 = (v % 128) * 2 ^ sh := by
        rw [Nat.shiftLeft_eq]
        apply Nat.mod_eq_of_lt
        calc (v % 128) * 2 ^ sh < 2 ^ (64 - sh) * 2 ^ sh := by
              apply Nat.mul_lt_mul_right (Nat.pos_pow_of_pos sh (by omega)) |>.mpr hmodlt
          _ = 2 ^ 64 := by rw [← pow_add]; congr 1; omega
      rw [if_neg (by omega)]
      simp only [hand, hshift]
      rw [or_add_of_lt hacc]
      have hrec := ih (v / 128) (Nat.div_lt_self (by omega) (by omega)) (sh + 7)
        (acc + v % 128 * 2 ^ sh) rest (by omega)
        (by
          rw [Nat.div_lt_iff_lt_mul (by omega : (0:Nat) < 128)]
          calc v < 2 ^ (64 - sh) := hv
            _ = 2 ^ (64 - (sh + 7)) * 128 := by
              rw [show (128 : Nat) = 2 ^ 7 by norm_num, ← pow_add]
              congr 1
              omega)
        (by
          have h1 : acc < 2 ^ sh := hacc
          have h2 : v % 128 < 128 := Nat.mod_lt _ (by omega)
          have h3 : v % 128 * 2 ^ sh ≤ 127 * 2 ^ sh := by
            apply Nat.mul_le_mul_right
            omega
          calc acc + v % 128 * 2 ^ sh < 2 ^ sh + 127 * 2 ^ sh := by omega
            _ = 2 ^ (sh + 7) := by ring
        )
      rw [hrec]
      congr 1
      congr 1
      have hsplit : v % 128 + 128 * (v / 128) = v := Nat.mod_add_div v 128
      calc acc + v % 128 * 2 ^ sh + v / 128 * 2 ^ (sh + 7)
          = acc + (v % 128 + 128 * (v / 128)) * 2 ^ sh := by ring
        _ = acc + v * 2 ^ sh := by rw [hsplit]

theorem readUvarint_put (v : Nat) (rest : List Nat) (hv : v < 2 ^ 64) :
    readUvarint (putUvarint v ++ rest) = .ok (v, rest) := by
  unfold readUvarint
  rw [readUvarintAux_put v 0 0 rest (by omega) (by simpa using hv) (by simp)]
  simp





theorem putUvarint_length_le :
    ∀ (k v : Nat), 0 < k → v < 2 ^ (7 * k) → (putUvarint v).length ≤ k := by
  intro k
  induction k with
  | zero => omega
  | succ k ih =>
    intro v _ hv
    rw [putUvarint]
    by_cases hsmall : v < 128
    · rw [if_pos hsmall]
      simp
    · rw [if_neg hsmall]
      simp only [List.length_cons]
      have hk : 0 < k := by
        by_contra hcon
        have : k = 0 := by omega
        subst this
        norm_num at hv
        omega
      have : (putUvarint (v / 128)).length ≤ k := by
        apply ih (v / 128) hk
        rw [Nat.div_lt_iff_lt_mul (by omega : (0:Nat) < 128)]
        calc v < 2 ^ (7 * (k + 1)) := hv
          _ = 2 ^ (7 * k) * 128 := by
            rw [show 7 * (k + 1) = 7 * k + 7 by ring, pow_add]
            norm_num
      omega

theorem parsePackedElems_payload :
    ∀ (es : List Nat) (rest : List Nat), (∀ e ∈ es, e < 2 ^ 64) →
      parsePackedElems ((es.map putUvarint).flatten).length
          (((es.map putUvarint).flatten) ++ rest) = .ok (es, rest) := by
  intro es
  induction es with
  | nil =>
    intro rest _
    rw [parsePackedElems]
    simp
  | cons e tl ih =>
    intro rest hlt
    have he : e < 2 ^ 64 := hlt e (by simp)
    have htl : ∀ x ∈ tl, x < 2 ^ 64 := fun x hx => hlt x (by simp [hx])
    have hpos := putUvarint_length_pos e
    rw [parsePackedElems]
    rw [if_neg (by
      simp only [List.map_cons, List.flatten_cons, List.length_append]
      omega)]
    split
    · rename_i er heq
      rw [List.map_cons, List.flatten_cons, List.append_assoc] at heq
      rw [readUvarint_put e _ he] at heq
      exact absurd heq (by simp)
    · rename_i v rest1 heq
      rw [List.map_cons, List.flatten_cons, List.append_assoc] at heq
      rw [readUvarint_put e _ he] at heq
      simp only [Except.ok.injEq, Prod.mk.injEq] at heq
      obtain ⟨hv, hrest1⟩ := heq
      subst hv
      subst hrest1
      have harith :
          ((((e :: tl).map putUvarint).flatten).length -
            ((((e :: tl).map putUvarint).flatten ++ rest).length -
              ((tl.map putUvarint).flatten ++ rest).length)) =
          ((tl.map putUvarint).flatten).length := by
        simp [List.length_append]
      rw [List.map_cons, List.flatten_cons] at harith ⊢
      simp only [List.length_append] at harith ⊢
      rw [show (putUvarint e).length + ((tl.map putUvarint).flatten).length -
            ((putUvarint e).length + ((tl.map putUvarint).flatten).length + rest.length -
              (((tl.map putUvarint).flatten).length + rest.length)) =
          ((tl.map putUvarint).flatten).length from by omega]
      rw [ih rest htl]





theorem toInt64_of_lt {n : Nat} (h : n < 2 ^ 63) : toInt64 n = (n : Int) := by
  unfold toInt64
  rw [Nat.mod_eq_of_lt (by omega)]
  rw [if_pos (by omega)]

theorem unmarshalStep_bits (bv : Nat) (tail : List Nat) (done : Nat)
    (bits0 : Int) (elems0 : List Nat) (hv : bv < 2 ^ 64) :
    unmarshalStep 8 (putUvarint bv ++ tail) done bits0 elems0 =
      .next tail (done + 1 + (putUvarint bv).length) (toInt64 bv) elems0 := by
  unfold unmarshalStep
  have h8 : readUvarint (8 :: (putUvarint bv ++ tail)) =
      .ok (8, putUvarint bv ++ tail) := by
    unfold readUvarint readUvarintAux
    simp
    decide
  rw [h8]
  simp only []
  rw [if_neg (show ¬((8 &&& 7) = 4) by decide)]
  rw [if_neg (show ¬(toInt32 (8 >>> 3) ≤ 0) by decide)]
  rw [if_pos (show toInt32 (8 >>> 3) = 1 by decide)]
  rw [if_neg (show ¬((8 &&& 7) ≠ 0) by decide)]
  rw [readUvarint_put bv tail hv]
  simp only []
  congr 1
  simp only [List.length_cons, List.length_append]
  omega

theorem unmarshalStep_packed (pay es tail : List Nat) (done : Nat)
    (bits0 : Int) (elems0 : List Nat)
    (hparse : parsePackedElems pay.length (pay ++ tail) = .ok (es, tail))
    (hpay : pay.length < 2 ^ 62) (hdone : done ≤ 32) :
    unmarshalStep 18 (putUvarint pay.length ++ (pay ++ tail)) done bits0 elems0 =
      .next tail (done + 1 + (putUvarint pay.length).length + pay.length)
        bits0 (elems0 ++ es) := by
  have hpl64 : pay.length < 2 ^ 64 := by
    have : (2:Nat) ^ 62 < 2 ^ 64 := by norm_num
    omega
  have hplvar : (putUvarint pay.length).length ≤ 10 := by
    apply putUvarint_length_le 10 _ (by omega)
    calc pay.length < 2 ^ 62 := hpay
      _ < 2 ^ (7 * 10) := by norm_num
  unfold unmarshalStep
  have h18 : readUvarint (18 :: (putUvarint pay.length ++ (pay ++ tail))) =
      .ok (18, putUvarint pay.length ++ (pay ++ tail)) := by
    unfold readUvarint readUvarintAux
    simp
    decide
  rw [h18]
  simp only []
  rw [if_neg (show ¬((18 &&& 7) = 4) by decide)]
  rw [if_neg (show ¬(toInt32 (18 >>> 3) ≤ 0) by decide)]
  rw [if_neg (show ¬(toInt32 (18 >>> 3) = 1) by decide)]
  rw [if_pos (show toInt32 (18 >>> 3) = 2 by decide)]
  rw [if_neg (show ¬((18 &&& 7) = 0) by decide)]
  rw [if_pos (show (18 &&& 7) = 2 by decide)]
  rw [readUvarint_put _ _ hpl64]
  simp only []
  rw [toInt64_of_lt (by
    calc pay.length < 2 ^ 62 := hpay
      _ < 2 ^ 63 := by norm_num)]
  rw [if_neg (not_lt.mpr (Int.natCast_nonneg pay.length))]
  simp only [List.length_cons, List.length_append]
  rw [show done +
        ((putUvarint pay.length).length + (pay.length + tail.length) + 1 -
          ((putUvarint pay.length).length + (pay.length + tail.length))) +
      ((putUvarint pay.length).length + (pay.length + tail.length) -
        (pay.length + tail.length)) =
      done + 1 + (putUvarint pay.length).length from by omega]
  rw [wrap64_eq_self (by push_cast; omega) (by push_cast; omega)]
  rw [if_neg (not_lt.mpr (by positivity))]
  rw [if_neg (by push_cast; omega)]
  rw [Int.toNat_natCast, hparse]
  simp only []
  congr 1
  omega





theorem unmarshalLoop_next {b : Nat} {bs rest : List Nat} {done done2 : Nat}
    {bits bits2 : Int} {elems elems2 : List Nat}
    (h : unmarshalStep b bs done bits elems = .next rest done2 bits2 elems2) :
    unmarshalLoop (b :: bs) done bits elems =
      unmarshalLoop rest done2 bits2 elems2 := by
  rw [unmarshalLoop]
  split
  · rename_i e heq
    rw [h] at heq
    exact absurd heq (by simp)
  · rename_i r d bb ee heq
    rw [h] at heq
    simp only [UStep.next.injEq] at heq
    obtain ⟨h1, h2, h3, h4⟩ := heq
    rw [h1, h2, h3, h4]

theorem unmarshalLoop_nil (done : Nat) (bits : Int) (elems : List Nat) :
    unmarshalLoop [] done bits elems = .ok ⟨bits, elems⟩ := by
  rw [unmarshalLoop]

/-- C10: for every `BitArray` with a non-negative bit count (and `uint64`
words, with the packed payload below the `int64` length ceiling that any
Go slice satisfies), `Unmarshal` applied to the output of `Marshal`
succeeds and reproduces the `Bits` field and the `Elems` sequence element
for element. -/
theorem payload_length_le (es : List Nat) (h : ∀ e ∈ es, e < 2 ^ 64) :
    ((es.map putUvarint).flatten).length ≤ 10 * es.length := by
  induction es with
  | nil => simp
  | cons e tl ih =>
    have he : e < 2 ^ 64 := h e (by simp)
    have htl := ih (fun x hx => h x (by simp [hx]))
    have hlen : (putUvarint e).length ≤ 10 := by
      apply putUvarint_length_le 10 _ (by omega)
      calc e < 2 ^ 64 := he
        _ < 2 ^ (7 * 10) := by norm_num
    simp only [List.map_cons, List.flatten_cons, List.length_append,
      List.length_cons]
    omega

theorem c10_bitArray_roundtrip (m : BitArray)
    (hlo : 0 ≤ m.Bits) (hhi : m.Bits < 2 ^ 63)
    (hes : ∀ e ∈ m.Elems, e < 2 ^ 64)
    (hpl : ((m.Elems.map putUvarint).flatten).length < 2 ^ 62) :
    BitArray.Unmarshal (BitArray.Marshal m) = .ok m := by
  obtain ⟨bits, elems⟩ := m
  simp only [BitArray.mk.injEq] at *
  unfold BitArray.Marshal BitArray.Unmarshal
  simp only []
  have hmod : (bits % (2 ^ 64 : Int)).toNat = bits.toNat := by
    rw [Int.emod_eq_of_lt hlo (by omega)]
  by_cases hb : bits = 0
  · subst hb
    rw [if_neg (by simp)]
    rw [List.nil_append]
    by_cases he : 0 < elems.length
    · rw [if_pos he]
      rw [show putUvarint ((elems.map putUvarint).flatten).length ++
            (elems.map putUvarint).flatten =
          putUvarint ((elems.map putUvarint).flatten).length ++
            ((elems.map putUvarint).flatten ++ []) from by simp]
      rw [unmarshalLoop_next (unmarshalStep_packed _ elems [] 0 0 []
        (parsePackedElems_payload elems [] hes) hpl (by omega))]
      rw [unmarshalLoop_nil]
      simp
    · rw [if_neg he]
      have helems : elems = [] := by
        cases elems with
        | nil => rfl
        | cons a as => simp at he
      subst helems
      rw [unmarshalLoop_nil]
  · rw [if_pos hb]
    rw [hmod]
    have hbv64 : bits.toNat < 2 ^ 64 := by omega
    have htoi : toInt64 bits.toNat = bits := by
      rw [toInt64_of_lt (by omega)]
      exact Int.toNat_of_nonneg hlo
    have hbvlen : (putUvarint bits.toNat).length ≤ 10 := by
      apply putUvarint_length_le 10 _ (by omega)
      calc bits.toNat < 2 ^ 63 := by omega
        _ < 2 ^ (7 * 10) := by norm_num
    by_cases he : 0 < elems.length
    · rw [if_pos he]
      rw [List.cons_append]
      rw [unmarshalLoop_next (unmarshalStep_bits bits.toNat _ 0 0 [] hbv64)]
      rw [show putUvarint ((elems.map putUvarint).flatten).length ++
            (elems.map putUvarint).flatten =
          putUvarint ((elems.map putUvarint).flatten).length ++
            ((elems.map putUvarint).flatten ++ []) from by simp]
      rw [unmarshalLoop_next (unmarshalStep_packed _ elems [] _ _ _
        (parsePackedElems_payload elems [] hes) hpl (by omega))]
      rw [unmarshalLoop_nil]
      simp [htoi]
    · rw [if_neg he]
      have helems : elems = [] := by
        cases elems with
        | nil => rfl
        | cons a as => simp at he
      subst helems
      rw [List.append_nil]
      rw [show putUvarint bits.toNat = putUvarint bits.toNat ++ [] from by simp]
      rw [unmarshalLoop_next (unmarshalStep_bits bits.toNat [] 0 0 [] hbv64)]
      rw [unmarshalLoop_nil]
      simp [htoi]

theorem c10_bitArray_roundtrip_witness :
    0 ≤ (BitArray.mk 70 [3, 300]).Bits ∧
      BitArray.Unmarshal (BitArray.Marshal ⟨70, [3, 300]⟩) =
        .ok ⟨70, [3, 300]⟩ :=
  ⟨by decide, c10_bitArray_roundtrip ⟨70, [3, 300]⟩ (by decide) (by decide)
    (by decide) (by
      show ((([3, 300] : List Nat).map putUvarint).flatten).length < 2 ^ 62
      have := payload_length_le [3, 300] (by decide)
      have h2 : ([3, 300] : List Nat).length = 2 := rfl
      rw [h2] at this
      omega)⟩

end Ostracon
